import Mathlib

/-!
Shallow embedding of the dynamic-programming core of `aug/seq/seq.py`
(rosalind repository): the RNA secondary-structure predictor
(`rna_structure_prediction` and `_rna_structure_reconstruct_answer`),
the failure/border array (`failure_array`), and the generic alignment
driver (`align`, `edit_distance`).  The scoring strategies referenced by
`align` live in `aug/seq/alignments.py`, which is not part of the sources;
those are modelled from the specification and are marked as such.
-/

set_option maxRecDepth 100000

namespace Rosalind

/-- Cells of the RNA DP matrix.  The Python code stores tuples of length 3
`(score, i, j)` (a simple step) or length 5 `(score, i1, j1, i2, j2)`
(a bifurcation); every cell starts as `(0, 0, 0)`. -/
inductive RnaCell where
  | step (s a b : Nat)
  | bifur (s a b c d : Nat)
deriving DecidableEq, Repr

/-- Python `cell[0]`: the score component of a matrix tuple. -/
def RnaCell.score : RnaCell → Nat
  | .step s _ _ => s
  | .bifur s _ _ _ _ => s

/-- Python `cell[1]`: the element at index 1 of a matrix tuple
(used by `matrix[0][-1][1]` in the return value). -/
def RnaCell.elem1 : RnaCell → Nat
  | .step _ a _ => a
  | .bifur _ a _ _ _ => a

/-- The DP matrix: `matrix = [[(0, 0, 0)] * len(rna) for _ in rna]`. -/
def initMat (L : Nat) : List (List RnaCell) :=
  List.replicate L (List.replicate L (.step 0 0 0))

/-- Python `matrix[i][j]` (all accesses in the program are in bounds; out of
bounds reads default to the initial cell). -/
def getCell (m : List (List RnaCell)) (i j : Nat) : RnaCell :=
  (m.getD i []).getD j (.step 0 0 0)

/-- Python `matrix[i][j] = c`. -/
def setCell (m : List (List RnaCell)) (i j : Nat) (c : RnaCell) :
    List (List RnaCell) :=
  m.set i ((m.getD i []).set j c)

/-- Strict lexicographic comparison of Python 3-tuples of ints. -/
def lt3 (a b : Nat × Nat × Nat) : Bool :=
  if a.1 ≠ b.1 then a.1 < b.1
  else if a.2.1 ≠ b.2.1 then a.2.1 < b.2.1
  else a.2.2 < b.2.2

/-- Strict lexicographic comparison of Python 5-tuples of ints. -/
def lt5 (a b : Nat × Nat × Nat × Nat × Nat) : Bool :=
  if a.1 ≠ b.1 then a.1 < b.1
  else if a.2.1 ≠ b.2.1 then a.2.1 < b.2.1
  else if a.2.2.1 ≠ b.2.2.1 then a.2.2.1 < b.2.2.1
  else if a.2.2.2.1 ≠ b.2.2.2.1 then a.2.2.2.1 < b.2.2.2.1
  else a.2.2.2.2 < b.2.2.2.2

/-- Python `max(a, b)`: keeps the first argument unless the second is
strictly greater. -/
def maxPy3 (a b : Nat × Nat × Nat) : Nat × Nat × Nat :=
  if lt3 a b then b else a

/-- One step of Python `max` over a sequence of 5-tuples: the running
maximum is replaced only when the next item is strictly greater. -/
def maxPy5 (cur y : Nat × Nat × Nat × Nat × Nat) :
    Nat × Nat × Nat × Nat × Nat :=
  if lt5 cur y then y else cur

/-- Line 850 of seq.py: `m1 = m1 if m1[0] >= complement_score else
(complement_score, i + 1, j - 1)`. -/
def rnaPairSkipChoice (m1 : Nat × Nat × Nat) (cs i j : Nat) :
    Nat × Nat × Nat :=
  if m1.1 ≥ cs then m1 else (cs, i + 1, j - 1)

/-- Line 851 of seq.py: `m2 = max((matrix[i][k][0] + matrix[k][j][0], i, k,
k, j) for k in range(i + 1, j + 1))`.  Python `max` over a sequence keeps
the current maximum unless a later item is strictly greater.  The range is
nonempty in every call the program makes (`i < j`); on an empty range we
return a zero-score dummy in place of Python's `ValueError`. -/
def rnaBifur (m : List (List RnaCell)) (i j : Nat) :
    Nat × Nat × Nat × Nat × Nat :=
  match (List.range' (i + 1) (j - i)).map
      (fun k => ((getCell m i k).score + (getCell m k j).score, i, k, k, j)) with
  | [] => (0, i, j, j, j)
  | x :: xs => xs.foldl maxPy5 x

/-- Line 852 of seq.py: `matrix[i][j] = m1 if m1[0] >= m2[0] else m2`. -/
def rnaFinalChoice (m1 : Nat × Nat × Nat)
    (m2 : Nat × Nat × Nat × Nat × Nat) : RnaCell :=
  if m1.1 ≥ m2.1 then .step m1.1 m1.2.1 m1.2.2
  else .bifur m2.1 m2.2.1 m2.2.2.1 m2.2.2.2.1 m2.2.2.2.2

/-- Lines 847-852 of seq.py: compute one cell `(i, j)` of the RNA matrix.
`m1 = max((matrix[i+1][j][0], i+1, j), (matrix[i][j-1][0], i, j-1))`;
`complement_score = matrix[i+1][j-1][0] + 1 if rna_int[i] + rna_int[j] == 5
else 0`; then the choices of lines 850 and 852. -/
def rnaFillCell (r : List Nat) (m : List (List RnaCell)) (i j : Nat) :
    List (List RnaCell) :=
  let m1 := maxPy3 ((getCell m (i + 1) j).score, i + 1, j)
                   ((getCell m i (j - 1)).score, i, j - 1)
  let cs := if r.getD i 0 + r.getD j 0 = 5
            then (getCell m (i + 1) (j - 1)).score + 1 else 0
  setCell m i j (rnaFinalChoice (rnaPairSkipChoice m1 cs i j) (rnaBifur m i j))

/-- The order in which lines 844-846 of seq.py visit the cells:
`for n in range(len(rna_int) - min_size): for i in range(len(rna_int) -
min_size - n): j = i + min_size + n` (here `ms` is the already incremented
`min_size`). -/
def rnaWriteOrder (L ms : Nat) : List (Nat × Nat) :=
  (List.range (L - ms)).flatMap
    (fun n => (List.range (L - ms - n)).map (fun i => (i, i + ms + n)))

/-- The fully filled RNA matrix (lines 840-852 of seq.py). -/
def rnaFill (r : List Nat) (ms L : Nat) : List (List RnaCell) :=
  (rnaWriteOrder L ms).foldl (fun m p => rnaFillCell r m p.1 p.2) (initMat L)

/-- `_rna_structure_reconstruct_answer` (lines 856-871 of seq.py), the
recursive traceback.  The `while score[0]:` loop is unfolded into recursion;
`fuel` bounds the number of steps (the spans shrink strictly at every step
on the matrices the program builds, so `fuel = len(rna)` never runs out).
Python's record condition `next_i - 1 == i and next_j + 1 == j` is written
as `ni = i + 1 ∧ nj + 1 = j`, which is the same equation over the integers. -/
def rnaRecons (m : List (List RnaCell)) : Nat → Nat → Nat → List (Nat × Nat)
  | 0, _, _ => []
  | fuel + 1, i, j =>
    match getCell m i j with
    | .step s ni nj =>
        if s = 0 then []
        else if ni = i + 1 ∧ nj + 1 = j then (i, j) :: rnaRecons m fuel ni nj
        else rnaRecons m fuel ni nj
    | .bifur s i1 j1 i2 j2 =>
        if s = 0 then []
        else rnaRecons m fuel i1 j1 ++ rnaRecons m fuel i2 j2

/-- Errors the Python code can raise in `rna_structure_prediction`:
`KeyError` from `rna_to_int_map[letter]` on a symbol outside `{A,C,G,U}`
(the spec's `InvalidSymbol`), and `IndexError` from `matrix[0][-1]` on the
empty sequence. -/
inductive PyErr where
  | keyError
  | indexError
deriving DecidableEq, Repr

/-- `rna_to_int_map = dict(A=1, C=2, G=3, U=4)`; `none` models a `KeyError`. -/
def rna_to_int_map (c : Char) : Option Nat :=
  if c = 'A' then some 1
  else if c = 'C' then some 2
  else if c = 'G' then some 3
  else if c = 'U' then some 4
  else none

/-- The list comprehension `rna_int = [rna_to_int_map[letter] for letter in
rna]` of line 842: built left to right, raising `KeyError` (here `none`) as
soon as a letter is outside the map. -/
def rnaIntOf : List Char → Option (List Nat)
  | [] => some []
  | c :: cs =>
    match rna_to_int_map c, rnaIntOf cs with
    | some v, some vs => some (v :: vs)
    | _, _ => none

/-- `rna_structure_prediction(rna, min_size=3)` (lines 828-853 of seq.py).
`rna_int = [rna_to_int_map[letter] for letter in rna]` raises `KeyError` on
an invalid letter; `min_size += 1`; the matrix is filled in span order and
the answer is `(_rna_structure_reconstruct_answer(matrix, 0, len(rna) - 1),
matrix[0][-1][1])`.  On the empty string `matrix[0][-1]` raises
`IndexError`. -/
def rna_structure_prediction (rna : List Char) (min_size : Nat) :
    Except PyErr (List (Nat × Nat) × Nat) :=
  match rnaIntOf rna with
  | none => .error .keyError
  | some rna_int =>
    let ms := min_size + 1
    let L := rna.length
    if L = 0 then .error .indexError
    else
      let m := rnaFill rna_int ms L
      .ok (rnaRecons m L 0 (L - 1), (getCell m 0 (L - 1)).elem1)

/-- Claim C4: with the default `minLoopSize` of 3, `predictRnaStructure`
returns exactly the pairs `{(0, 4)}` with auxiliary value `1` on `"ACCCU"`,
and exactly `{(0, 8), (1, 7), (2, 6), (12, 20), (13, 19), (14, 18)}` with
auxiliary value `0` on `"CCCAAAGGGAAAGGGAAACCC"`. -/
theorem rna_concrete_scenarios :
    rna_structure_prediction "ACCCU".toList 3 =
      .ok ([(0, 4)], 1) ∧
    rna_structure_prediction "CCCAAAGGGAAAGGGAAACCC".toList 3 =
      .ok ([(0, 8), (1, 7), (2, 6), (12, 20), (13, 19), (14, 18)], 0) :=
  ⟨rfl, rfl⟩

/-- Claim C1: the pairing list returned by `rna_structure_prediction` is NOT
always a matching.  On the failing input `"AAAAUAAAA"` (default
`min_size = 3`) the code returns the two distinct pairs `(0, 4)` and
`(4, 8)`, which share index 4: the bifurcation candidate
`matrix[i][k] + matrix[k][j]` splits `[i, j]` into `[i, k]` and `[k, j]`,
both of which may pair position `k`. -/
theorem rna_matching_violated_on_failing_input :
    rna_structure_prediction "AAAAUAAAA".toList 3 =
      .ok ([(0, 4), (4, 8)], 0) ∧
    ((0, 4) : Nat × Nat) ≠ (4, 8) ∧
    ((0, 4) : Nat × Nat).2 = ((4, 8) : Nat × Nat).1 :=
  ⟨rfl, by decide, rfl⟩

/-- Claim C2 counterexample: in the run on `"AAU"` with `min_size = 0`, at
cell `(0, 2)` the endpoint symbols are complementary, the pairing candidate
value and the skip candidate value are both `1`, yet line 850 keeps the skip
tuple `(1, 1, 2)` and the cell records the skip backpointer `(1, 2)` rather
than the pairing backpointer `(1, 1)`: pairing does NOT win on ties. -/
theorem rna_pair_tie_counterexample :
    rnaIntOf "AAU".toList = some [1, 1, 4] ∧
    ([1, 1, 4] : List Nat).getD 0 0 + ([1, 1, 4] : List Nat).getD 2 0 = 5 ∧
    maxPy3 ((getCell (rnaFill [1, 1, 4] 1 3) 1 2).score, 1, 2)
           ((getCell (rnaFill [1, 1, 4] 1 3) 0 1).score, 0, 1) = (1, 1, 2) ∧
    (getCell (rnaFill [1, 1, 4] 1 3) 1 1).score + 1 = 1 ∧
    rnaPairSkipChoice (1, 1, 2) 1 0 2 = (1, 1, 2) ∧
    rnaPairSkipChoice (1, 1, 2) 1 0 2 ≠ (1, 0 + 1, 2 - 1) ∧
    getCell (rnaFill [1, 1, 4] 1 3) 0 2 = .step 1 1 2 ∧
    RnaCell.step 1 1 2 ≠ RnaCell.step 1 (0 + 1) (2 - 1) :=
  ⟨rfl, rfl, rfl, rfl, rfl, by decide, rfl, by decide⟩

/-- Claim C2 (amended): in the choice of line 850 the pairing candidate wins
over the skip candidate exactly when its value is strictly greater; on a tie
the skip candidate is kept. -/
theorem rna_pair_beats_skip_iff_strictly_greater
    (m1 : Nat × Nat × Nat) (cs i j : Nat) :
    (cs > m1.1 → rnaPairSkipChoice m1 cs i j = (cs, i + 1, j - 1)) ∧
    (m1.1 ≥ cs → rnaPairSkipChoice m1 cs i j = m1) := by
  constructor <;> intro h <;> unfold rnaPairSkipChoice
  · rw [if_neg (by omega)]
  · rw [if_pos h]

/-- Witness for the amended claim C2 at concrete inputs. -/
theorem rna_pair_beats_skip_iff_strictly_greater_witness :
    ((2 : Nat) > 1 ∧ rnaPairSkipChoice (1, 5, 9) 2 4 9 = (2, 4 + 1, 9 - 1)) ∧
    ((1 : Nat) ≥ 1 ∧ rnaPairSkipChoice (1, 1, 2) 1 0 2 = (1, 1, 2)) :=
  ⟨⟨by decide,
    (rna_pair_beats_skip_iff_strictly_greater (1, 5, 9) 2 4 9).1 (by decide)⟩,
   ⟨by decide,
    (rna_pair_beats_skip_iff_strictly_greater (1, 1, 2) 1 0 2).2 (by decide)⟩⟩

/-- `lt5 a b = true` implies the first components satisfy `a.1 ≤ b.1`. -/
theorem lt5_fst_le {a b : Nat × Nat × Nat × Nat × Nat}
    (h : lt5 a b = true) : a.1 ≤ b.1 := by
  unfold lt5 at h
  by_cases h1 : a.1 = b.1
  · omega
  · rw [if_pos h1] at h
    simpa using Nat.le_of_lt (by simpa using h)

/-- `lt5 a b = false` implies the first components satisfy `b.1 ≤ a.1`. -/
theorem lt5_fst_ge {a b : Nat × Nat × Nat × Nat × Nat}
    (h : lt5 a b = false) : b.1 ≤ a.1 := by
  unfold lt5 at h
  by_cases h1 : a.1 = b.1
  · omega
  · rw [if_pos h1] at h
    have : ¬ a.1 < b.1 := by simpa using h
    omega

/-- A fold of Python `max` over 5-tuples bounds the first components of the
initial value and of every list element. -/
theorem foldl_maxPy5_ge (xs : List (Nat × Nat × Nat × Nat × Nat)) :
    ∀ cur y, (y = cur ∨ y ∈ xs) → y.1 ≤ (xs.foldl maxPy5 cur).1 := by
  induction xs with
  | nil =>
    intro cur y hy
    rcases hy with h | h
    · simp [h]
    · simp at h
  | cons z zs ih =>
    intro cur y hy
    have hstep : ∀ w, (w = cur ∨ w = z) → w.1 ≤ (maxPy5 cur z).1 := by
      intro w hw
      unfold maxPy5
      rcases hlt : lt5 cur z with hf | ht
      · rcases hw with h | h <;> subst h
        · simp
        · simpa using lt5_fst_ge hlt
      · rcases hw with h | h <;> subst h
        · simpa using lt5_fst_le hlt
        · simp
    rcases hy with h | h
    · calc y.1 ≤ (maxPy5 cur z).1 := hstep y (Or.inl h)
        _ ≤ ((z :: zs).foldl maxPy5 cur).1 := by
            simpa using ih (maxPy5 cur z) (maxPy5 cur z) (Or.inl rfl)
    · rcases List.mem_cons.mp h with h | h
      · calc y.1 ≤ (maxPy5 cur z).1 := hstep y (Or.inr h)
          _ ≤ ((z :: zs).foldl maxPy5 cur).1 := by
              simpa using ih (maxPy5 cur z) (maxPy5 cur z) (Or.inl rfl)
      · simpa using ih (maxPy5 cur z) y (Or.inr h)

/-- A fold of Python `max` returns the initial value or a list element. -/
theorem foldl_maxPy5_mem (xs : List (Nat × Nat × Nat × Nat × Nat)) :
    ∀ cur, xs.foldl maxPy5 cur = cur ∨ xs.foldl maxPy5 cur ∈ xs := by
  induction xs with
  | nil => intro cur; simp
  | cons z zs ih =>
    intro cur
    rw [List.foldl_cons]
    rcases ih (maxPy5 cur z) with h | h
    · rw [h]
      unfold maxPy5
      split
      · right; exact List.mem_cons_self _ _
      · left; rfl
    · right; exact List.mem_cons_of_mem _ h

/-- For `i < j`, line 851's `max` is a fold of `maxPy5` over the nonempty
candidate list, started at the `k = i + 1` candidate. -/
theorem rnaBifur_spec (m : List (List RnaCell)) (i j : Nat) (h : i < j) :
    ∃ xs,
      (List.range' (i + 1) (j - i)).map
          (fun k => ((getCell m i k).score + (getCell m k j).score, i, k, k, j)) =
        ((getCell m i (i + 1)).score + (getCell m (i + 1) j).score,
          i, i + 1, i + 1, j) :: xs ∧
      rnaBifur m i j =
        xs.foldl maxPy5
          ((getCell m i (i + 1)).score + (getCell m (i + 1) j).score,
            i, i + 1, i + 1, j) := by
  obtain ⟨t, ht⟩ : ∃ t, j - i = t + 1 := ⟨j - i - 1, by omega⟩
  refine ⟨(List.range' (i + 2) t).map
    (fun k => ((getCell m i k).score + (getCell m k j).score, i, k, k, j)),
    ?_, ?_⟩
  · rw [ht]; rfl
  · unfold rnaBifur; rw [ht]; rfl

/-- Claim C3: for a cell `(i, j)` with `i < j`, the bifurcation candidate of
line 851 is the maximum of `matrix[i][k] + matrix[k][j]` over
`k ∈ (i, j]`, and line 852 records it for the cell only when its value is
strictly greater than the chosen non-bifurcating candidate `m1`; on a tie
the non-bifurcating tuple is kept.  The last conjunct ties the stages to
the program's cell update. -/
theorem rna_bifurcation_strict_tie_break
    (m : List (List RnaCell)) (i j : Nat) (m1 : Nat × Nat × Nat)
    (h : i < j) :
    (∀ k, i + 1 ≤ k → k ≤ j →
      (getCell m i k).score + (getCell m k j).score ≤ (rnaBifur m i j).1) ∧
    ((rnaBifur m i j).1 > m1.1 →
      rnaFinalChoice m1 (rnaBifur m i j) =
        .bifur (rnaBifur m i j).1 (rnaBifur m i j).2.1 (rnaBifur m i j).2.2.1
          (rnaBifur m i j).2.2.2.1 (rnaBifur m i j).2.2.2.2) ∧
    (m1.1 ≥ (rnaBifur m i j).1 →
      rnaFinalChoice m1 (rnaBifur m i j) = .step m1.1 m1.2.1 m1.2.2) ∧
    (∀ r, rnaFillCell r m i j =
      setCell m i j (rnaFinalChoice
        (rnaPairSkipChoice
          (maxPy3 ((getCell m (i + 1) j).score, i + 1, j)
                  ((getCell m i (j - 1)).score, i, j - 1))
          (if r.getD i 0 + r.getD j 0 = 5
           then (getCell m (i + 1) (j - 1)).score + 1 else 0) i j)
        (rnaBifur m i j))) := by
  refine ⟨?_, ?_, ?_, fun r => rfl⟩
  · intro k hk1 hk2
    have hmem : ((getCell m i k).score + (getCell m k j).score, i, k, k, j)
        ∈ (List.range' (i + 1) (j - i)).map
          (fun k => ((getCell m i k).score + (getCell m k j).score, i, k, k, j)) :=
      List.mem_map_of_mem _ (by rw [List.mem_range'_1]; omega)
    obtain ⟨xs, hxs, hb⟩ := rnaBifur_spec m i j h
    rw [hxs] at hmem
    rw [hb]
    rcases List.mem_cons.mp hmem with hk | hk
    · exact foldl_maxPy5_ge _ _ _ (Or.inl hk)
    · exact foldl_maxPy5_ge _ _ _ (Or.inr hk)
  · intro hgt
    unfold rnaFinalChoice
    rw [if_neg (by omega)]
  · intro hge
    unfold rnaFinalChoice
    rw [if_pos hge]

/-- Witness for claim C3 at a concrete cell of the run on `"ACCCU"`. -/
theorem rna_bifurcation_strict_tie_break_witness :
    ((0 : Nat) < 4) ∧
    ((getCell (rnaFill [1, 2, 2, 2, 4] 4 5) 0 2).score +
      (getCell (rnaFill [1, 2, 2, 2, 4] 4 5) 2 4).score ≤
      (rnaBifur (rnaFill [1, 2, 2, 2, 4] 4 5) 0 4).1) ∧
    ((1 : Nat) ≥ (rnaBifur (rnaFill [1, 2, 2, 2, 4] 4 5) 0 4).1 ∧
      rnaFinalChoice (1, 1, 3) (rnaBifur (rnaFill [1, 2, 2, 2, 4] 4 5) 0 4) =
        .step 1 1 3) :=
  ⟨by decide,
   (rna_bifurcation_strict_tie_break (rnaFill [1, 2, 2, 2, 4] 4 5) 0 4
      (1, 1, 3) (by decide)).1 2 (by decide) (by decide),
   by decide,
   (rna_bifurcation_strict_tie_break (rnaFill [1, 2, 2, 2, 4] 4 5) 0 4
      (1, 1, 3) (by decide)).2.2.1 (by decide)⟩

/-- `getD` on a replicated list. -/
theorem getD_replicate {α : Type} (L : Nat) (x d : α) :
    ∀ a, (List.replicate L x).getD a d = if a < L then x else d := by
  induction L with
  | zero => intro a; simp
  | succ n ih =>
    intro a
    cases a with
    | zero => simp [List.replicate]
    | succ b =>
      simp only [List.replicate, List.getD_cons_succ, ih b]
      by_cases hb : b < n
      · rw [if_pos hb, if_pos (by omega)]
      · rw [if_neg hb, if_neg (by omega)]

/-- Every cell of the initial matrix is `(0, 0, 0)`. -/
theorem getCell_initMat (L a b : Nat) :
    getCell (initMat L) a b = .step 0 0 0 := by
  unfold getCell initMat
  rw [getD_replicate]
  by_cases ha : a < L
  · rw [if_pos ha, getD_replicate]
    by_cases hb : b < L
    · rw [if_pos hb]
    · rw [if_neg hb]
  · rw [if_neg ha]
    simp

/-- If some letter is outside the map, the comprehension of line 842 raises
`KeyError` (`none`). -/
theorem rnaIntOf_eq_none {rna : List Char} {c : Char} (hc : c ∈ rna)
    (hnone : rna_to_int_map c = none) : rnaIntOf rna = none := by
  induction rna with
  | nil => simp at hc
  | cons x xs ih =>
    rcases List.mem_cons.mp hc with h | h
    · subst h
      unfold rnaIntOf
      rw [hnone]
    · unfold rnaIntOf
      rw [ih h]
      rcases rna_to_int_map x with h1 | h1 <;> rfl

/-- If every letter is in the map, the comprehension of line 842 succeeds. -/
theorem rnaIntOf_eq_some {rna : List Char}
    (hval : ∀ c ∈ rna, rna_to_int_map c ≠ none) :
    ∃ ys, rnaIntOf rna = some ys := by
  induction rna with
  | nil => exact ⟨[], rfl⟩
  | cons x xs ih =>
    obtain ⟨ys, hys⟩ := ih (fun c hc => hval c (List.mem_cons_of_mem x hc))
    obtain ⟨v, hv⟩ : ∃ v, rna_to_int_map x = some v := by
      rcases h : rna_to_int_map x with _ | v
      · exact absurd h (hval x (List.mem_cons_self x xs))
      · exact ⟨v, rfl⟩
    exact ⟨v :: ys, by unfold rnaIntOf; rw [hv, hys]⟩

/-- Claim C9: any input containing a symbol outside `{A, C, G, U}` makes
`rna_structure_prediction` fail with the `KeyError` raised by
`rna_to_int_map[letter]` (the spec's `InvalidSymbol`), for every
`min_size`. -/
theorem rna_invalid_symbol_fails (rna : List Char) (min_size : Nat)
    (h : ∃ c ∈ rna, c ∉ (['A', 'C', 'G', 'U'] : List Char)) :
    rna_structure_prediction rna min_size = .error .keyError := by
  obtain ⟨c, hc, hout⟩ := h
  have hnone : rna_to_int_map c = none := by
    unfold rna_to_int_map
    simp only [List.mem_cons, List.not_mem_nil, or_false, not_or] at hout
    rw [if_neg hout.1, if_neg hout.2.1, if_neg hout.2.2.1, if_neg hout.2.2.2]
  unfold rna_structure_prediction
  rw [rnaIntOf_eq_none hc hnone]

/-- Witness for claim C9 on the concrete input `"ACXU"`. -/
theorem rna_invalid_symbol_fails_witness :
    (∃ c ∈ "ACXU".toList, c ∉ (['A', 'C', 'G', 'U'] : List Char)) ∧
    rna_structure_prediction "ACXU".toList 3 = .error .keyError :=
  ⟨by decide, rna_invalid_symbol_fails "ACXU".toList 3 (by decide)⟩

/-- Claim C8 counterexample: on the empty sequence the claim fails —
`matrix[0][-1]` raises `IndexError`, so `rna_structure_prediction` does not
return an empty-pairing result. -/
theorem rna_empty_input_errors :
    rna_structure_prediction [] 3 = .error .indexError := rfl

/-- Claim C8 (amended): for every NONEMPTY RNA sequence over `{A, C, G, U}`
strictly shorter than `min_size + 1`, `rna_structure_prediction` returns the
well-defined empty-pairing result `([], 0)`; the empty sequence instead
raises `IndexError`. -/
theorem rna_short_input_empty_result (rna : List Char) (min_size : Nat)
    (hne : rna ≠ [])
    (hval : ∀ c ∈ rna, rna_to_int_map c ≠ none)
    (hshort : rna.length < min_size + 1) :
    rna_structure_prediction rna min_size = .ok ([], 0) := by
  obtain ⟨ys, hys⟩ := rnaIntOf_eq_some hval
  have hL : rna.length ≠ 0 := fun h => hne (List.eq_nil_of_length_eq_zero h)
  unfold rna_structure_prediction
  rw [hys]
  show (if rna.length = 0 then Except.error PyErr.indexError
    else Except.ok
      (rnaRecons (rnaFill ys (min_size + 1) rna.length) rna.length 0
        (rna.length - 1),
       (getCell (rnaFill ys (min_size + 1) rna.length) 0
        (rna.length - 1)).elem1)) = Except.ok ([], 0)
  rw [if_neg hL]
  have hwo : rnaWriteOrder rna.length (min_size + 1) = [] := by
    unfold rnaWriteOrder
    have : rna.length - (min_size + 1) = 0 := by omega
    rw [this]
    rfl
  have hfill : rnaFill ys (min_size + 1) rna.length = initMat rna.length := by
    unfold rnaFill
    rw [hwo]
    rfl
  rw [hfill]
  obtain ⟨t, ht⟩ : ∃ t, rna.length = t + 1 := ⟨rna.length - 1, by omega⟩
  rw [ht]
  have hrec : rnaRecons (initMat (t + 1)) (t + 1) 0 (t + 1 - 1) = [] := by
    rw [rnaRecons, getCell_initMat]
    rfl
  rw [hrec, getCell_initMat]
  rfl

/-- Witness for the amended claim C8 on the concrete input `"ACG"`. -/
theorem rna_short_input_empty_result_witness :
    ("ACG".toList ≠ ([] : List Char)) ∧
    (∀ c ∈ "ACG".toList, rna_to_int_map c ≠ none) ∧
    "ACG".toList.length < 3 + 1 ∧
    rna_structure_prediction "ACG".toList 3 = .ok ([], 0) :=
  ⟨by decide, by decide, by decide,
   rna_short_input_empty_result "ACG".toList 3 (by decide) (by decide)
     (by decide)⟩

/-- The inner loop of `failure_array` (lines 740-743 of seq.py): scan the
candidate values `prev` downward from `result[i - 1]` to `0`, returning
`prev + 1` for the first `prev` with `dna[:prev + 1] == dna[i - prev:i + 1]`
(Python slices modelled by `take`/`drop`), and `0` when none matches. -/
def faScan (dna : List Char) (i : Nat) : Nat → Nat
  | 0 => if dna.take 1 = (dna.take (i + 1)).drop i then 1 else 0
  | p + 1 =>
    if dna.take (p + 2) = (dna.take (i + 1)).drop (i - (p + 1)) then p + 2
    else faScan dna i p

/-- `result[i]` of `failure_array`: `result[0] = 0` and, for `i ≥ 1`, the
downward scan started at `result[i - 1]`.  Each entry of the Python array
depends only on the previous entry, so the mutated array is exactly this
recurrence. -/
def faVal (dna : List Char) : Nat → Nat
  | 0 => 0
  | i + 1 => faScan dna (i + 1) (faVal dna i)

/-- `failure_array(dna)` (lines 727-744 of seq.py): `result = [0] * len(dna)`
followed by the scan loop for `i in range(1, len(dna))`. -/
def failure_array (dna : List Char) : List Nat :=
  (List.range dna.length).map (faVal dna)

/-- The property claimed for `P[k]`: the substring of `dna` of length `ℓ`
ending at position `k` equals the length-`ℓ` front of `dna`. -/
def IsBorderAt (dna : List Char) (k ℓ : Nat) : Prop :=
  dna.take ℓ = (dna.take (k + 1)).drop (k + 1 - ℓ)

instance (dna : List Char) (k : Nat) : DecidablePred (IsBorderAt dna k) :=
  fun _ => inferInstanceAs (Decidable (_ = _))

/-- Cutting the last character from a border of position `i + 1` gives a
border of position `i`. -/
theorem isBorderAt_shrink (dna : List Char) (i m : Nat) (hm : m ≤ i + 1)
    (h : IsBorderAt dna (i + 1) (m + 1)) : IsBorderAt dna i m := by
  unfold IsBorderAt at h ⊢
  have h2 : i + 1 + 1 - (m + 1) = i + 1 - m := by omega
  rw [h2] at h
  have e1 : (dna.take (m + 1)).take m = dna.take m := by
    rw [List.take_take]
    congr 1
    omega
  have e2 : ((dna.take (i + 2)).drop (i + 1 - m)).take m =
      (dna.take (i + 1)).drop (i + 1 - m) := by
    rw [List.take_drop, List.take_take]
    congr 2
    omega
  calc dna.take m = (dna.take (m + 1)).take m := e1.symm
    _ = ((dna.take (i + 2)).drop (i + 1 - m)).take m := by rw [h]
    _ = (dna.take (i + 1)).drop (i + 1 - m) := e2

/-- The downward scan from `p0` computes the greatest positive border length
`ℓ ≤ p0 + 1` of position `i`, or `0` when there is none. -/
theorem faScan_eq_findGreatest (dna : List Char) (i : Nat) :
    ∀ p0, faScan dna i p0 =
      Nat.findGreatest (fun ℓ => 0 < ℓ ∧ IsBorderAt dna i ℓ) (p0 + 1) := by
  intro p0
  induction p0 with
  | zero =>
    rw [faScan, Nat.findGreatest_succ]
    have hiff : (dna.take 1 = (dna.take (i + 1)).drop i) ↔
        (0 < 1 ∧ IsBorderAt dna i 1) := by
      unfold IsBorderAt
      have : i + 1 - 1 = i := by omega
      rw [this]
      simp
    by_cases hc : dna.take 1 = (dna.take (i + 1)).drop i
    · rw [if_pos hc, if_pos (hiff.mp hc)]
    · rw [if_neg hc, if_neg (fun hp => hc (hiff.mpr hp))]
      rfl
  | succ p ih =>
    rw [faScan, Nat.findGreatest_succ]
    have hiff : (dna.take (p + 2) = (dna.take (i + 1)).drop (i - (p + 1))) ↔
        (0 < p + 2 ∧ IsBorderAt dna i (p + 2)) := by
      unfold IsBorderAt
      have : i + 1 - (p + 2) = i - (p + 1) := by omega
      rw [this]
      simp
    by_cases hc : dna.take (p + 2) = (dna.take (i + 1)).drop (i - (p + 1))
    · rw [if_pos hc, if_pos (hiff.mp hc)]
    · rw [if_neg hc, if_neg (fun hp => hc (hiff.mpr hp)), ih]

/-- The code's value `P[i]` is the greatest border length `ℓ ≤ i` of
position `i`, even though the scan starts only at `P[i - 1] + 1`. -/
theorem faVal_eq_findGreatest (dna : List Char) :
    ∀ i, faVal dna i = Nat.findGreatest (IsBorderAt dna i) i := by
  intro i
  induction i with
  | zero => rfl
  | succ i ih =>
    have hscan := faScan_eq_findGreatest dna (i + 1) (faVal dna i)
    rw [faVal, hscan]
    have hFi : faVal dna i ≤ i := by
      rw [ih]
      exact Nat.findGreatest_le _
    -- every positive border of position i + 1 within the bound is at most
    -- faVal dna i + 1: its shrinking is a border of position i
    have hbound : ∀ m, 0 < m → m ≤ i + 1 → IsBorderAt dna (i + 1) m →
        m ≤ faVal dna i + 1 := by
      intro m hm0 hmle hmB
      obtain ⟨m, rfl⟩ : ∃ t, m = t + 1 := ⟨m - 1, by omega⟩
      have hshr := isBorderAt_shrink dna i m (by omega) hmB
      have : m ≤ Nat.findGreatest (IsBorderAt dna i) i :=
        Nat.le_findGreatest (by omega) hshr
      omega
    have hx := (Nat.findGreatest_eq_iff
      (P := fun ℓ => 0 < ℓ ∧ IsBorderAt dna (i + 1) ℓ)
      (k := faVal dna i + 1)).mp rfl
    symm
    rw [Nat.findGreatest_eq_iff]
    refine ⟨by omega, fun hne => (hx.2.1 hne).2, ?_⟩
    -- maximality: nothing above the scan result is a border
    intro n hlt hle hB
    have hn0 : 0 < n := by omega
    have hnF : n ≤ faVal dna i + 1 := hbound n hn0 hle hB
    have : n ≤ Nat.findGreatest
        (fun ℓ => 0 < ℓ ∧ IsBorderAt dna (i + 1) ℓ) (faVal dna i + 1) :=
      Nat.le_findGreatest hnF ⟨hn0, hB⟩
    omega

/-- Entries of a mapped range. -/
theorem getD_map_range (n k : Nat) (f : Nat → Nat) (h : k < n) :
    ((List.range n).map f).getD k 0 = f k := by
  rw [List.getD_eq_getElem?_getD, List.getElem?_map, List.getElem?_range h]
  rfl

/-- Claim C7: `failure_array(s)` has length `|s|`, entry 0 is `0`, and entry
`k` is the greatest length `ℓ < k + 1` such that the substring of `s` ending
at `k` of length `ℓ` equals the front of `s` of length `ℓ` (the downward
scan from `P[k-1] + 1` finds the true maximum); consequently `P[k] ≤ k`. -/
theorem failure_array_correct (dna : List Char) :
    (failure_array dna).length = dna.length ∧
    (0 < dna.length → (failure_array dna).getD 0 0 = 0) ∧
    (∀ k, k < dna.length →
      (failure_array dna).getD k 0 = Nat.findGreatest (IsBorderAt dna k) k) ∧
    (∀ k, k < dna.length → (failure_array dna).getD k 0 ≤ k) := by
  have hget : ∀ k, k < dna.length →
      (failure_array dna).getD k 0 = faVal dna k := by
    intro k hk
    unfold failure_array
    exact getD_map_range _ _ _ hk
  refine ⟨by simp [failure_array], ?_, ?_, ?_⟩
  · intro h0
    rw [hget 0 h0]
    rfl
  · intro k hk
    rw [hget k hk, faVal_eq_findGreatest]
  · intro k hk
    rw [hget k hk, faVal_eq_findGreatest]
    exact Nat.findGreatest_le _

/-- Witness for claim C7 on the concrete input `"CAGCAG"`. -/
theorem failure_array_correct_witness :
    (failure_array "CAGCAG".toList).length = "CAGCAG".toList.length ∧
    ((0 : Nat) < "CAGCAG".toList.length ∧
      (failure_array "CAGCAG".toList).getD 0 0 = 0) ∧
    ((5 : Nat) < "CAGCAG".toList.length ∧
      (failure_array "CAGCAG".toList).getD 5 0 =
        Nat.findGreatest (IsBorderAt "CAGCAG".toList 5) 5) ∧
    (failure_array "CAGCAG".toList).getD 5 0 ≤ 5 :=
  ⟨(failure_array_correct "CAGCAG".toList).1,
   ⟨by decide, (failure_array_correct "CAGCAG".toList).2.1 (by decide)⟩,
   ⟨by decide, (failure_array_correct "CAGCAG".toList).2.2.1 5 (by decide)⟩,
   (failure_array_correct "CAGCAG".toList).2.2.2 5 (by decide)⟩

/-- `getD` after `set` at the same index. -/
theorem getD_set_self {α : Type} (l : List α) (i : Nat) (x d : α)
    (h : i < l.length) : (l.set i x).getD i d = x := by
  induction l generalizing i with
  | nil => simp at h
  | cons y ys ih =>
    cases i with
    | zero => rfl
    | succ n =>
      simp only [List.set_cons_succ, List.getD_cons_succ]
      exact ih n (by simpa using h)

/-- `getD` after `set` at a different index. -/
theorem getD_set_ne {α : Type} (l : List α) (i a : Nat) (x d : α)
    (h : i ≠ a) : (l.set i x).getD a d = l.getD a d := by
  induction l generalizing i a with
  | nil => simp
  | cons y ys ih =>
    cases i with
    | zero =>
      cases a with
      | zero => exact absurd rfl h
      | succ b => rfl
    | succ n =>
      cases a with
      | zero => rfl
      | succ b =>
        simp only [List.set_cons_succ, List.getD_cons_succ]
        exact ih n b (by omega)

/-- Full characterization of a cell read after a cell write. -/
theorem getCell_setCell (m : List (List RnaCell)) (i j a b : Nat)
    (c : RnaCell) :
    getCell (setCell m i j c) a b =
      if a = i ∧ b = j ∧ i < m.length ∧ j < (m.getD i []).length then c
      else getCell m a b := by
  by_cases hcond : a = i ∧ b = j ∧ i < m.length ∧ j < (m.getD i []).length
  · rw [if_pos hcond]
    obtain ⟨rfl, rfl, hi, hj⟩ := hcond
    unfold getCell setCell
    rw [getD_set_self _ _ _ _ hi, getD_set_self _ _ _ _ hj]
  · rw [if_neg hcond]
    unfold getCell setCell
    by_cases ha : a = i
    · subst ha
      by_cases hi : a < m.length
      · rw [getD_set_self _ _ _ _ hi]
        by_cases hb : b = j
        · subst hb
          by_cases hj : b < (m.getD a []).length
          · exact absurd ⟨rfl, rfl, hi, hj⟩ hcond
          · rw [List.set_eq_of_length_le (by omega)]
        · rw [getD_set_ne _ _ _ _ _ (fun hh => hb hh.symm)]
      · rw [List.set_eq_of_length_le (by omega)]
    · rw [getD_set_ne _ _ _ _ _ (fun hh => ha hh.symm)]

/-- The backpointer shapes that the fill can store in cell `(i, j)`: the two
skip steps, the pairing step, or a bifurcation at a proper split point
`i < k < j`.  A zero-score cell needs no shape (the traceback stops
there). -/
def ShapeCell (i j : Nat) (c : RnaCell) : Prop :=
  c.score = 0 ∨ (i < j ∧
    ((∃ s, c = .step s (i + 1) j) ∨ (∃ s, c = .step s i (j - 1)) ∨
     (∃ s, c = .step s (i + 1) (j - 1)) ∨
     (∃ s k, i < k ∧ k < j ∧ c = .bifur s i k k j)))

/-- Coordinates written by the fill loop: `i + ms ≤ j < L`. -/
theorem rnaWriteOrder_mem {L ms : Nat} {p : Nat × Nat}
    (hp : p ∈ rnaWriteOrder L ms) : p.1 + ms ≤ p.2 ∧ p.2 < L := by
  unfold rnaWriteOrder at hp
  simp only [List.mem_flatMap, List.mem_map, List.mem_range] at hp
  obtain ⟨n, hn, i, hi, rfl⟩ := hp
  constructor <;> omega

/-- Each cell is written at most once by the fill loop. -/
theorem rnaWriteOrder_nodup (L ms : Nat) : (rnaWriteOrder L ms).Nodup := by
  unfold rnaWriteOrder
  rw [List.nodup_flatMap]
  constructor
  · intro n _
    exact (List.nodup_range _).map
      (fun a b hab => by simpa using congrArg Prod.fst hab)
  · rw [List.pairwise_iff_forall_sublist]
    intro n1 n2 hsub
    have hne : n1 ≠ n2 := by
      intro h
      subst h
      exact (List.nodup_iff_sublist.mp (List.nodup_range _)) n1 hsub
    simp only [Function.onFun]
    intro p hp1 hp2
    obtain ⟨p1, p2⟩ := p
    simp only [List.mem_map, List.mem_range] at hp1 hp2
    obtain ⟨i1, _, he1⟩ := hp1
    obtain ⟨i2, _, he2⟩ := hp2
    rw [Prod.mk.injEq] at he1 he2
    omega

/-- The bifurcation candidate is one of the candidates of line 851's
generator, for a split point `k ∈ (i, j]`. -/
theorem rnaBifur_mem (m : List (List RnaCell)) (i j : Nat) (h : i < j) :
    ∃ k, i + 1 ≤ k ∧ k ≤ j ∧
      rnaBifur m i j =
        ((getCell m i k).score + (getCell m k j).score, i, k, k, j) := by
  obtain ⟨xs, hxs, hb⟩ := rnaBifur_spec m i j h
  rcases foldl_maxPy5_mem xs
      ((getCell m i (i + 1)).score + (getCell m (i + 1) j).score,
        i, i + 1, i + 1, j) with hmem | hmem
  · exact ⟨i + 1, by omega, by omega, by rw [hb, hmem]⟩
  · have hin : rnaBifur m i j ∈
        (List.range' (i + 1) (j - i)).map
          (fun k => ((getCell m i k).score + (getCell m k j).score, i, k, k, j)) := by
      rw [hxs, hb]
      exact List.mem_cons_of_mem _ hmem
    obtain ⟨k, hk, heq⟩ := List.mem_map.mp hin
    rw [List.mem_range'_1] at hk
    exact ⟨k, hk.1, by omega, heq.symm⟩

/-- Line 850 outputs one of three concrete triples. -/
theorem pairSkip_coords (a b cs i j : Nat) :
    rnaPairSkipChoice (maxPy3 (a, i + 1, j) (b, i, j - 1)) cs i j =
        (a, i + 1, j) ∨
    rnaPairSkipChoice (maxPy3 (a, i + 1, j) (b, i, j - 1)) cs i j =
        (b, i, j - 1) ∨
    rnaPairSkipChoice (maxPy3 (a, i + 1, j) (b, i, j - 1)) cs i j =
        (cs, i + 1, j - 1) := by
  unfold rnaPairSkipChoice maxPy3
  split_ifs <;> simp

/-- The final choice of line 852 has a valid backpointer shape whenever the
skip/pair stage outputs one of its three possible coordinate forms and the
bifurcation candidate is a well-formed split that can only win with a
positive score. -/
theorem shape_of_choice (i j : Nat) (hij : i < j) (q : Nat × Nat × Nat)
    (m2 : Nat × Nat × Nat × Nat × Nat)
    (hq : q.2 = (i + 1, j) ∨ q.2 = (i, j - 1) ∨ q.2 = (i + 1, j - 1))
    (hm2 : ∃ k, i < k ∧ k ≤ j ∧ m2.2 = (i, k, k, j) ∧ (k = j → m2.1 = 0)) :
    ShapeCell i j (rnaFinalChoice q m2) := by
  obtain ⟨qs, q2⟩ := q
  obtain ⟨ms, m2r⟩ := m2
  obtain ⟨k, hik, hkj, hm2eq, hkz⟩ := hm2
  replace hq : q2 = (i + 1, j) ∨ q2 = (i, j - 1) ∨ q2 = (i + 1, j - 1) := hq
  replace hm2eq : m2r = (i, k, k, j) := hm2eq
  replace hkz : k = j → ms = 0 := hkz
  subst hm2eq
  unfold rnaFinalChoice
  split
  · rcases hq with h | h | h <;> subst h
    · exact Or.inr ⟨hij, Or.inl ⟨qs, rfl⟩⟩
    · exact Or.inr ⟨hij, Or.inr (Or.inl ⟨qs, rfl⟩)⟩
    · exact Or.inr ⟨hij, Or.inr (Or.inr (Or.inl ⟨qs, rfl⟩))⟩
  · rename_i hlt
    have hgt : ms > qs := by
      simp only [ge_iff_le, not_le] at hlt
      exact hlt
    have hkj2 : k < j := by
      rcases Nat.lt_or_ge k j with hh | hh
      · exact hh
      · have hkeq : k = j := by omega
        have := hkz hkeq
        omega
    exact Or.inr ⟨hij, Or.inr (Or.inr (Or.inr ⟨ms, k, hik, hkj2, rfl⟩))⟩

/-- The value stored by the fill into a not-yet-written cell `(i, j)` with
`i < j` (own old score and the diagonal score being zero) has a valid
backpointer shape. -/
theorem shape_of_written (r : List Nat) (m : List (List RnaCell)) (i j : Nat)
    (hij : i < j) (hown : (getCell m i j).score = 0)
    (hdiag : (getCell m j j).score = 0) :
    ShapeCell i j (rnaFinalChoice
      (rnaPairSkipChoice
        (maxPy3 ((getCell m (i + 1) j).score, i + 1, j)
                ((getCell m i (j - 1)).score, i, j - 1))
        (if r.getD i 0 + r.getD j 0 = 5
         then (getCell m (i + 1) (j - 1)).score + 1 else 0) i j)
      (rnaBifur m i j)) := by
  obtain ⟨k, hk1, hk2, hb⟩ := rnaBifur_mem m i j hij
  apply shape_of_choice i j hij
  · rcases pairSkip_coords ((getCell m (i + 1) j).score)
        ((getCell m i (j - 1)).score)
        (if r.getD i 0 + r.getD j 0 = 5
         then (getCell m (i + 1) (j - 1)).score + 1 else 0) i j
      with h | h | h
    · exact Or.inl (by rw [h])
    · exact Or.inr (Or.inl (by rw [h]))
    · exact Or.inr (Or.inr (by rw [h]))
  · refine ⟨k, by omega, hk2, by rw [hb], ?_⟩
    intro hkeq
    subst hkeq
    rw [hb]
    simp [hown, hdiag]

/-- Invariant carried along the fill loop: cells still to be written and the
diagonal hold score zero, and every cell has a valid shape; hence every cell
of the final matrix has a valid shape. -/
theorem fill_invariant (r : List Nat) :
    ∀ (rem : List (Nat × Nat)) (m : List (List RnaCell)),
      rem.Nodup →
      (∀ p ∈ rem, p.1 < p.2) →
      (∀ p ∈ rem, (getCell m p.1 p.2).score = 0) →
      (∀ a, (getCell m a a).score = 0) →
      (∀ a b, ShapeCell a b (getCell m a b)) →
      ∀ a b, ShapeCell a b
        (getCell (rem.foldl (fun m p => rnaFillCell r m p.1 p.2) m) a b) := by
  intro rem
  induction rem with
  | nil =>
    intro m _ _ _ _ hshape a b
    exact hshape a b
  | cons p rest ih =>
    intro m hnd hlt hzero hdiag hshape a b
    rw [List.foldl_cons]
    obtain ⟨i, j⟩ := p
    have hij : i < j := hlt (i, j) (List.mem_cons_self _ _)
    have hnotmem : (i, j) ∉ rest := (List.nodup_cons.mp hnd).1
    have hfc : rnaFillCell r m i j = setCell m i j
        (rnaFinalChoice
          (rnaPairSkipChoice
            (maxPy3 ((getCell m (i + 1) j).score, i + 1, j)
                    ((getCell m i (j - 1)).score, i, j - 1))
            (if r.getD i 0 + r.getD j 0 = 5
             then (getCell m (i + 1) (j - 1)).score + 1 else 0) i j)
          (rnaBifur m i j)) := rfl
    apply ih (rnaFillCell r m i j) (List.nodup_cons.mp hnd).2
      (fun q hq => hlt q (List.mem_cons_of_mem _ hq))
    · -- cells still to be written keep score zero
      intro q hq
      rw [hfc, getCell_setCell, if_neg]
      · exact hzero q (List.mem_cons_of_mem _ hq)
      · rintro ⟨h1, h2, _⟩
        exact hnotmem (by rw [← h1, ← h2]; exact hq)
    · -- the diagonal keeps score zero
      intro c
      rw [hfc, getCell_setCell, if_neg]
      · exact hdiag c
      · rintro ⟨h1, h2, _⟩
        omega
    · -- every cell of the updated matrix has a valid shape
      intro c d
      rw [hfc, getCell_setCell]
      by_cases hcd : c = i ∧ d = j ∧ i < m.length ∧ j < (m.getD i []).length
      · rw [if_pos hcd]
        obtain ⟨rfl, rfl, _, _⟩ := hcd
        exact shape_of_written r m c d hij
          (hzero (c, d) (List.mem_cons_self _ _)) (hdiag d)
      · rw [if_neg hcd]
        exact hshape c d

/-- Every cell of the filled RNA matrix has a valid backpointer shape (the
program always calls the fill with `ms = min_size + 1 ≥ 1`). -/
theorem rnaFill_shape (r : List Nat) (ms L : Nat) (hms : 0 < ms) :
    ∀ a b, ShapeCell a b (getCell (rnaFill r ms L) a b) := by
  unfold rnaFill
  apply fill_invariant r (rnaWriteOrder L ms) (initMat L)
    (rnaWriteOrder_nodup L ms)
  · intro p hp
    have h1 := (rnaWriteOrder_mem hp).1
    omega
  · intro p hp
    rw [getCell_initMat]
    rfl
  · intro a
    rw [getCell_initMat]
    rfl
  · intro a b
    rw [getCell_initMat]
    exact Or.inl rfl

/-- On a matrix whose cells all have valid backpointer shapes, the traceback
from `(i, j)` yields pairs inside `[i, j]` with `fst < snd`, listed in
strictly increasing order of first index. -/
theorem rnaRecons_increasing (m : List (List RnaCell))
    (hshape : ∀ a b, ShapeCell a b (getCell m a b)) :
    ∀ fuel i j,
      (∀ p ∈ rnaRecons m fuel i j, i ≤ p.1 ∧ p.1 < p.2 ∧ p.2 ≤ j) ∧
      List.Pairwise (fun p q : Nat × Nat => p.1 < q.1)
        (rnaRecons m fuel i j) := by
  intro fuel
  induction fuel with
  | zero =>
    intro i j
    refine ⟨fun p hp => ?_, ?_⟩
    · simp [rnaRecons] at hp
    · simp [rnaRecons]
  | succ f ih =>
    intro i j
    have hsh := hshape i j
    rw [rnaRecons]
    cases hcell : getCell m i j with
    | step s ni nj =>
      dsimp only
      rw [hcell] at hsh
      by_cases hs : s = 0
      · rw [if_pos hs]
        exact ⟨fun p hp => absurd hp (List.not_mem_nil p), List.Pairwise.nil⟩
      · rw [if_neg hs]
        rcases hsh with h0 | ⟨hij, hcases⟩
        · exact absurd h0 hs
        rcases hcases with ⟨s2, hstep⟩ | ⟨s2, hstep⟩ | ⟨s2, hstep⟩ |
          ⟨s2, k, hik, hkj, hstep⟩
        · injection hstep with h1 h2 h3
          rw [h2, h3]
          rw [if_neg (by omega : ¬(i + 1 = i + 1 ∧ j + 1 = j))]
          obtain ⟨ihb, ihp⟩ := ih (i + 1) j
          refine ⟨fun p hp => ?_, ihp⟩
          have := ihb p hp
          omega
        · injection hstep with h1 h2 h3
          rw [h2, h3]
          rw [if_neg (by omega : ¬(i = i + 1 ∧ j - 1 + 1 = j))]
          obtain ⟨ihb, ihp⟩ := ih i (j - 1)
          refine ⟨fun p hp => ?_, ihp⟩
          have := ihb p hp
          omega
        · injection hstep with h1 h2 h3
          rw [h2, h3]
          rw [if_pos (by omega : i + 1 = i + 1 ∧ j - 1 + 1 = j)]
          obtain ⟨ihb, ihp⟩ := ih (i + 1) (j - 1)
          refine ⟨fun p hp => ?_, ?_⟩
          · rcases List.mem_cons.mp hp with h | h
            · rw [h]
              exact ⟨Nat.le_refl i, hij, Nat.le_refl j⟩
            · have := ihb p h
              omega
          · rw [List.pairwise_cons]
            refine ⟨fun q hq => ?_, ihp⟩
            have := ihb q hq
            omega
        · exact RnaCell.noConfusion hstep
    | bifur s i1 j1 i2 j2 =>
      dsimp only
      rw [hcell] at hsh
      by_cases hs : s = 0
      · rw [if_pos hs]
        exact ⟨fun p hp => absurd hp (List.not_mem_nil p), List.Pairwise.nil⟩
      · rw [if_neg hs]
        rcases hsh with h0 | ⟨hij, hcases⟩
        · exact absurd h0 hs
        rcases hcases with ⟨s2, hstep⟩ | ⟨s2, hstep⟩ | ⟨s2, hstep⟩ |
          ⟨s2, k, hik, hkj, hstep⟩
        · exact RnaCell.noConfusion hstep
        · exact RnaCell.noConfusion hstep
        · exact RnaCell.noConfusion hstep
        · injection hstep with h1 h2 h3 h4 h5
          rw [h2, h3, h4, h5]
          obtain ⟨ihLb, ihLp⟩ := ih i k
          obtain ⟨ihRb, ihRp⟩ := ih k j
          refine ⟨fun p hp => ?_, ?_⟩
          · rcases List.mem_append.mp hp with h | h
            · have := ihLb p h
              omega
            · have := ihRb p h
              omega
          · rw [List.pairwise_append]
            refine ⟨ihLp, ihRp, fun p hp q hq => ?_⟩
            have h1 := ihLb p hp
            have h2 := ihRb q hq
            omega

/-- Claim C10: whenever `rna_structure_prediction` succeeds, the base pairs
come back as an ordered list that is strictly increasing in the pairs' first
index (simple-step chains record strictly increasing first indices, and at a
bifurcation all pairs of the left segment precede all pairs of the right
segment). -/
theorem rna_pairs_first_strictly_increasing (rna : List Char)
    (min_size : Nat) (pairs : List (Nat × Nat)) (aux : Nat)
    (h : rna_structure_prediction rna min_size = .ok (pairs, aux)) :
    List.Pairwise (fun p q : Nat × Nat => p.1 < q.1) pairs := by
  unfold rna_structure_prediction at h
  cases hint : rnaIntOf rna with
  | none =>
    rw [hint] at h
    exact Except.noConfusion h
  | some ys =>
    rw [hint] at h
    replace h : (if rna.length = 0 then Except.error PyErr.indexError
      else Except.ok
        (rnaRecons (rnaFill ys (min_size + 1) rna.length) rna.length 0
          (rna.length - 1),
         (getCell (rnaFill ys (min_size + 1) rna.length) 0
          (rna.length - 1)).elem1)) = Except.ok (pairs, aux) := h
    by_cases hL : rna.length = 0
    · rw [if_pos hL] at h
      exact Except.noConfusion h
    · rw [if_neg hL] at h
      injection h with h2
      rw [Prod.mk.injEq] at h2
      obtain ⟨h3, _⟩ := h2
      subst h3
      exact (rnaRecons_increasing _
        (rnaFill_shape ys (min_size + 1) rna.length (by omega))
        rna.length 0 (rna.length - 1)).2

/-- Witness for claim C10 on the concrete run on `"ACCCU"`. -/
theorem rna_pairs_first_strictly_increasing_witness :
    rna_structure_prediction "ACCCU".toList 3 = .ok ([(0, 4)], 1) ∧
    List.Pairwise (fun p q : Nat × Nat => p.1 < q.1) [((0 : Nat), (4 : Nat))] :=
  ⟨rfl, rna_pairs_first_strictly_increasing "ACCCU".toList 3 [(0, 4)] 1 rfl⟩

/-- Values the Python `align` (lines 604-625 of seq.py) can place in its
result: an int score or a 2-tuple of aligned strings. -/
inductive PyVal where
  | int (n : Int)
  | strPair (a b : List Char)
deriving DecidableEq, Repr

/-- The dynamic return value of Python `align`: either a tuple (here, an
ordered list of values — component order is observable) or a bare value. -/
inductive AlignReturn where
  | tuple (xs : List PyVal)
  | scalar (v : PyVal)
deriving DecidableEq, Repr

/-- The duck-typed strategy object consumed by `align`: the four operations
of §4.1 of the spec (`init_distance_matrix`, `calculate_distance`, `score`,
`reconstruct_answer` in the source's naming).  `calculate_distance` returns
the updated matrix in place of Python's in-place mutation. -/
structure AlignMethod where
  init_distance_matrix : List Char → List Char → List (List Int)
  calculate_distance :
    List Char → List Char → List (List Int) → Nat → Nat → List (List Int)
  score : List (List Int) → Int
  reconstruct_answer :
    List Char → List Char → List (List Int) → Bool → List Char × List Char

/-- `itertools.product(range(1, len(seq2) + 1), range(1, len(seq1) + 1))`
(line 619 of seq.py): `i` outer over `seq2`, `j` inner over `seq1`. -/
def alignCellOrder (len1 len2 : Nat) : List (Nat × Nat) :=
  (List.range' 1 len2).flatMap
    (fun i => (List.range' 1 len1).map (fun j => (i, j)))

/-- The filled distance matrix of `align` (lines 618-620 of seq.py). -/
def alignMatrix (seq1 seq2 : List Char) (method : AlignMethod) :
    List (List Int) :=
  (alignCellOrder seq1.length seq2.length).foldl
    (fun d p => method.calculate_distance seq1 seq2 d p.1 p.2)
    (method.init_distance_matrix seq1 seq2)

/-- `align(seq1, seq2, reconstruct_answer=True, method=..., swap_case_on_mismatch=True)`
(lines 604-625 of seq.py): fill the matrix, extract the score, and return
`method.reconstruct_answer(...), score` — the reconstruction FIRST and the
score SECOND — when reconstruction is requested, the bare score otherwise. -/
def align (seq1 seq2 : List Char) (reconstruct_answer : Bool)
    (method : AlignMethod) (swap_case_on_mismatch : Bool) : AlignReturn :=
  let distances := alignMatrix seq1 seq2 method
  let score := method.score distances
  if reconstruct_answer then
    .tuple [.strPair
        (method.reconstruct_answer seq1 seq2 distances swap_case_on_mismatch).1
        (method.reconstruct_answer seq1 seq2 distances swap_case_on_mismatch).2,
      .int score]
  else .scalar (.int score)

/-- Modelled from the spec: the scoring strategies live in
`aug/seq/alignments.py`, which is missing from the provided sources.  §4.1
describes a strategy by a substitution cost, a gap cost, an improvement
direction (maximize or minimize) and a boundary function for row 0 and
column 0. -/
structure SpecStrategy where
  subCost : Char → Char → Int
  gapCost : Int
  isBetter : Int → Int → Bool
  boundary : Nat → Int

/-- Python `matrix[i][j]` for the distance matrix. -/
def mget (d : List (List Int)) (i j : Nat) : Int :=
  (d.getD i []).getD j 0

/-- Python `matrix[i][j] = v` for the distance matrix. -/
def mset (d : List (List Int)) (i j : Nat) (v : Int) : List (List Int) :=
  d.set i ((d.getD i []).set j v)

/-- Modelled from the spec: `initialize` (§4.1) allocates the
`(len(seq2) + 1) × (len(seq1) + 1)` matrix and fills row 0 and column 0
with the strategy's boundary values. -/
def specInit (S : SpecStrategy) (seq1 seq2 : List Char) : List (List Int) :=
  (List.range (seq2.length + 1)).map (fun i =>
    (List.range (seq1.length + 1)).map (fun j =>
      if i = 0 then S.boundary j else if j = 0 then S.boundary i else 0))

/-- Modelled from the spec: `fill_cell` (§4.1) computes cell `(i, j)` as the
best of diagonal (`matrix[i-1][j-1] + substitution`), vertical
(`matrix[i-1][j] + gap`) and horizontal (`matrix[i][j-1] + gap`), ties
broken diagonal over vertical over horizontal. -/
def specFill (S : SpecStrategy) (seq1 seq2 : List Char)
    (d : List (List Int)) (i j : Nat) : List (List Int) :=
  let dC := mget d (i - 1) (j - 1) +
    S.subCost (seq1.getD (j - 1) ' ') (seq2.getD (i - 1) ' ')
  let vC := mget d (i - 1) j + S.gapCost
  let hC := mget d i (j - 1) + S.gapCost
  let best1 := if S.isBetter vC dC then vC else dC
  let best2 := if S.isBetter hC best1 then hC else best1
  mset d i j best2

/-- Modelled from the spec: `extract_score` (§4.1) reads the bottom-right
cell. -/
def specScore (d : List (List Int)) : Int :=
  mget d (d.length - 1) ((d.getD 0 []).length - 1)

/-- Modelled from the spec: `reconstruct` (§4.1) walks backward from the
bottom-right cell, re-deriving which move produced the recorded value in the
same diagonal-vertical-horizontal tie-break order, emitting `-` into the
sequence that did not advance, lower-casing both symbols of a mismatched
aligned position when requested; it stops when both indices reach 0.  The
walk shortens `i + j` at every step, so `fuel = len(seq1) + len(seq2)`
suffices. -/
def specRecon (S : SpecStrategy) (seq1 seq2 : List Char)
    (d : List (List Int)) (swap : Bool) :
    Nat → Nat → Nat → List Char → List Char → List Char × List Char
  | 0, _, _, acc1, acc2 => (acc1, acc2)
  | fuel + 1, i, j, acc1, acc2 =>
    if i = 0 ∧ j = 0 then (acc1, acc2)
    else if 0 < i ∧ 0 < j ∧ mget d i j = mget d (i - 1) (j - 1) +
        S.subCost (seq1.getD (j - 1) ' ') (seq2.getD (i - 1) ' ') then
      let c1 := seq1.getD (j - 1) ' '
      let c2 := seq2.getD (i - 1) ' '
      if swap ∧ c1 ≠ c2 then
        specRecon S seq1 seq2 d swap fuel (i - 1) (j - 1)
          (c1.toLower :: acc1) (c2.toLower :: acc2)
      else
        specRecon S seq1 seq2 d swap fuel (i - 1) (j - 1)
          (c1 :: acc1) (c2 :: acc2)
    else if 0 < i ∧ mget d i j = mget d (i - 1) j + S.gapCost then
      specRecon S seq1 seq2 d swap fuel (i - 1) j
        ('-' :: acc1) (seq2.getD (i - 1) ' ' :: acc2)
    else if 0 < j ∧ mget d i j = mget d i (j - 1) + S.gapCost then
      specRecon S seq1 seq2 d swap fuel i (j - 1)
        (seq1.getD (j - 1) ' ' :: acc1) ('-' :: acc2)
    else if 0 < i then
      specRecon S seq1 seq2 d swap fuel (i - 1) j
        ('-' :: acc1) (seq2.getD (i - 1) ' ' :: acc2)
    else
      specRecon S seq1 seq2 d swap fuel i (j - 1)
        (seq1.getD (j - 1) ' ' :: acc1) ('-' :: acc2)

/-- Modelled from the spec: package a `SpecStrategy` as the duck-typed
method object `align` consumes. -/
def strategyMethod (S : SpecStrategy) : AlignMethod where
  init_distance_matrix := specInit S
  calculate_distance := specFill S
  score := specScore
  reconstruct_answer := fun seq1 seq2 d swap =>
    specRecon S seq1 seq2 d swap (seq1.length + seq2.length)
      seq2.length seq1.length [] []

/-- Modelled from the spec: the `Levinshtein` strategy — minimization, unit
gap cost, substitution cost 0 for equal symbols and 1 otherwise, linear
boundary. -/
def Levinshtein : AlignMethod :=
  strategyMethod
    { subCost := fun a b => if a = b then 0 else 1
      gapCost := 1
      isBetter := fun x y => decide (x < y)
      boundary := fun n => Int.ofNat n }

/-- Modelled from the spec: the `NeedlemanWunsch` strategy — maximization
with `match_score`/`mismatch_score` substitution and `gap_score` gaps; the
boundary applies the `gap_start` (gap-open) cost once and then the linear
gap cost (§4.1); the `fill_cell` recurrence of §4.1 carries no gap-open
term. -/
def NeedlemanWunsch
    (match_score mismatch_score gap_score gap_start : Int) : AlignMethod :=
  strategyMethod
    { subCost := fun a b => if a = b then match_score else mismatch_score
      gapCost := gap_score
      isBetter := fun x y => decide (y < x)
      boundary := fun n =>
        if n = 0 then 0 else gap_start + gap_score * Int.ofNat n }

/-- `edit_distance(str1, str2, reconstruct_answer=False, ...)` (lines
628-635 of seq.py): `align` with the `Levinshtein` strategy. -/
def edit_distance (str1 str2 : List Char) (reconstruct_answer : Bool)
    (swap_case_on_mismatch : Bool) : AlignReturn :=
  align str1 str2 reconstruct_answer Levinshtein swap_case_on_mismatch

/-- The spec-modelled `Levinshtein` strategy reproduces the spec's own
concrete scenario `editDistance("editing", "distance") = 5`, validating the
model. -/
theorem edit_distance_editing_distance :
    edit_distance "editing".toList "distance".toList false true =
      .scalar (.int 5) := rfl

/-- Claim C5 counterexample: on the concrete input
`align("AB", "B", reconstruct_answer=True, method=Levinshtein())` the
returned tuple is `(("AB", "-B"), 1)` — reconstruction first, score
second — which differs from the claimed component order (score first). -/
theorem align_order_counterexample :
    align "AB".toList "B".toList true Levinshtein true =
      .tuple [.strPair "AB".toList "-B".toList, .int 1] ∧
    AlignReturn.tuple [.strPair "AB".toList "-B".toList, .int 1] ≠
      .tuple [.int 1, .strPair "AB".toList "-B".toList] :=
  ⟨rfl, by decide⟩

/-- Claim C5 (amended): for every pair of input sequences and every
strategy, `align` with reconstruction requested returns the pair whose
FIRST component is the reconstructed alignment and whose SECOND component is
the extracted score; with reconstruction not requested it returns the score
alone. -/
theorem align_returns_reconstruction_then_score (seq1 seq2 : List Char)
    (method : AlignMethod) (swap : Bool) :
    align seq1 seq2 true method swap =
      .tuple [.strPair
          (method.reconstruct_answer seq1 seq2
            (alignMatrix seq1 seq2 method) swap).1
          (method.reconstruct_answer seq1 seq2
            (alignMatrix seq1 seq2 method) swap).2,
        .int (method.score (alignMatrix seq1 seq2 method))] ∧
    align seq1 seq2 false method swap =
      .scalar (.int (method.score (alignMatrix seq1 seq2 method))) :=
  ⟨rfl, rfl⟩

/-- The strategy of claim C6 lives in the missing `aug/seq/alignments.py`.
The spec-modelled `NeedlemanWunsch` — faithful to §4.1, whose `fill_cell`
has no gap-open term — yields score `-1` on the first C6 scenario, not the
claimed `-11`, so the claimed outputs hinge on affine-gap behavior of the
missing module that the spec does not determine. -/
theorem nw_spec_model_differs_from_claimed_scenario :
    (NeedlemanWunsch 1 (-1) (-1) (-10)).score
      (alignMatrix "AXC".toList "AABCC".toList
        (NeedlemanWunsch 1 (-1) (-1) (-10))) = -1 ∧
    (-1 : Int) ≠ -11 :=
  ⟨rfl, by decide⟩

end Rosalind
